import Mathlib

/-!
Verification of the image-filter plugin boundary and its two reference
filters (the weighted-blur plugin and the axis-flip plugin).

Modelling conventions, fixed once for the whole development:

* Pixel buffers are `List ℕ` whose entries are byte values (`< 256`); the
  Rust code views the buffer as `&mut [u8]` of length `width * height * 4`.
* Rust `f64` arithmetic inside the blur engine is modelled as exact real
  arithmetic over `ℝ`; `f64::sqrt` is `Real.sqrt`, `f64::round` rounds half
  away from zero, and the final `as u8` cast saturates into `[0, 255]`.
* Raw pointers crossing the C ABI are `Option`s: `none` models a null
  pointer.  The parameter C string is modelled at the level of its parse
  outcome: `none` models text that does not parse (including non-UTF-8 text
  replaced by the empty string, which never parses), `some j` models text
  that parses to the JSON value `j`.  JSON arrays are outside the model:
  the parameter schemas of both plugins are JSON objects.
* `usize` is the 64-bit length type of the target, so `checked_mul`
  fails exactly when a product reaches `2 ^ 64`.
-/

/-- Bytes per RGBA pixel, the `BYTES_PER_PIXEL` constant of both plugins. -/
def BYTES_PER_PIXEL : ℕ := 4

/-- First value that does not fit the 64-bit `usize` length type. -/
def USIZE_BOUND : ℕ := 2 ^ 64

/-- Model of `usize::checked_mul`: the product, unless it overflows. -/
def checked_mul (a b : ℕ) : Option ℕ :=
  if a * b < USIZE_BOUND then some (a * b) else none

/-!
## Weighted blur engine (blur_plugin)

`accumulate_neighborhood` in the Rust source scans `ny` over
`[center_y.saturating_sub(radius), min (center_y + radius + 1) height)` and
`nx` over the analogous horizontal range, accumulating, for each of the four
channels, `sum += data[src + c] as f64 * weight` together with
`total_weight += weight`, where
`weight = 1.0 / max 1.0 (sqrt (dx * dx + dy * dy))` and `dx`, `dy` are the
absolute coordinate differences.  A left fold of `+` starting from `0.0` is
written below as `List.sum` of the mapped list.
-/

/-- Neighbour coordinates `(ny, nx)` scanned by `accumulate_neighborhood`,
in loop order (`ny` outer, `nx` inner); `center_y - radius` is the
saturating subtraction of the source. -/
def neighbor_list (width height center_x center_y radius : ℕ) : List (ℕ × ℕ) :=
  (List.range' (center_y - radius)
      (min (center_y + radius + 1) height - (center_y - radius))).flatMap
    (fun ny =>
      (List.range' (center_x - radius)
          (min (center_x + radius + 1) width - (center_x - radius))).map
        (fun nx => (ny, nx)))

/-- Weight of one neighbour: `1.0 / distance.max(1.0)` with
`distance = sqrt (dx * dx + dy * dy)`. -/
noncomputable def nweight (center_x center_y : ℕ) (p : ℕ × ℕ) : ℝ :=
  1 / max 1 (Real.sqrt ((Nat.dist center_x p.2 * Nat.dist center_x p.2 +
    Nat.dist center_y p.1 * Nat.dist center_y p.1 : ℕ) : ℝ))

/-- Accumulated weighted sum of one channel (`off` is the channel offset
`0..3`): `sum_channel += f64::from(data[src + off]) * weight` over the
neighbourhood.  Out-of-range reads are given the default `0`; the in-bounds
theorem below shows the source never performs such a read. -/
noncomputable def chanSum (data : List ℕ) (width height center_x center_y radius off : ℕ) : ℝ :=
  ((neighbor_list width height center_x center_y radius).map
    (fun p => ((data.getD ((p.1 * width + p.2) * BYTES_PER_PIXEL + off) 0 : ℕ) : ℝ) *
      nweight center_x center_y p)).sum

/-- Accumulated `total_weight` over the neighbourhood. -/
noncomputable def totWeight (width height center_x center_y radius : ℕ) : ℝ :=
  ((neighbor_list width height center_x center_y radius).map
    (nweight center_x center_y)).sum

/-- Return tuple `(sum_r, sum_g, sum_b, sum_a, total_weight)` of
`accumulate_neighborhood`. -/
noncomputable def accumulate_neighborhood (data : List ℕ) (width height center_x center_y radius : ℕ) :
    ℝ × ℝ × ℝ × ℝ × ℝ :=
  (chanSum data width height center_x center_y radius 0,
   chanSum data width height center_x center_y radius 1,
   chanSum data width height center_x center_y radius 2,
   chanSum data width height center_x center_y radius 3,
   totWeight width height center_x center_y radius)

/-- Rust `f64::round`: round half away from zero. -/
noncomputable def rustRound (x : ℝ) : ℤ :=
  if 0 ≤ x then ⌊x + 1 / 2⌋ else ⌈x - 1 / 2⌉

/-- Rust saturating float-to-`u8` cast (`as u8`). -/
def asU8 (z : ℤ) : ℕ := (min 255 (max 0 z)).toNat

/-- `value.round() as u8`, the store performed into the scratch buffer. -/
noncomputable def toByte (x : ℝ) : ℕ := asU8 (rustRound x)

/-- One iteration of `weighted_blur`: every position of the scratch buffer
`temp` is overwritten with the rounded weighted average computed from the
previous contents of `data`, then `temp` is copied back; functionally, the
new buffer listed row-major, four channel bytes per pixel. -/
noncomputable def blur_pass (data : List ℕ) (width height radius : ℕ) : List ℕ :=
  (List.range height).flatMap fun y =>
    (List.range width).flatMap fun x =>
      match accumulate_neighborhood data width height x y radius with
      | (sr, sg, sb, sa, tw) =>
        [toByte (sr / tw), toByte (sg / tw), toByte (sb / tw), toByte (sa / tw)]

/-- `weighted_blur`: `iterations` passes, each reading only the result of
the previous one (the double-buffering of the source). -/
noncomputable def weighted_blur (data : List ℕ) (width height radius iterations : ℕ) : List ℕ :=
  (fun d => blur_pass d width height radius)^[iterations] data

/-!
## Axis flip engine (mirror_plugin)

Both flips are sequences of in-place byte swaps.  `listSwap` models
`slice::swap`; a flip folds it over the list of index pairs generated by
the loops of the source, in loop order.
-/

/-- Model of `data.swap(i, j)` on a list. -/
def listSwap (data : List ℕ) (i j : ℕ) : List ℕ :=
  (data.set i (data.getD j 0)).set j (data.getD i 0)

/-- Fold a sequence of swaps over the buffer, in order. -/
def swapAll (data : List ℕ) (ps : List (ℕ × ℕ)) : List ℕ :=
  ps.foldl (fun d p => listSwap d p.1 p.2) data

/-- Index pairs swapped by `flip_horizontal`, in loop order: for each row
`y` and each column `x < width / 2`, the four bytes of pixel `x` swap with
the four bytes of pixel `width - 1 - x` of the same row. -/
def hPairs (width height : ℕ) : List (ℕ × ℕ) :=
  (List.range height).flatMap fun y =>
    (List.range (width / 2)).flatMap fun x =>
      (List.range BYTES_PER_PIXEL).map fun i =>
        (y * (width * BYTES_PER_PIXEL) + x * BYTES_PER_PIXEL + i,
         y * (width * BYTES_PER_PIXEL) + (width - 1 - x) * BYTES_PER_PIXEL + i)

/-- `flip_horizontal` of mirror_plugin. -/
def flip_horizontal (data : List ℕ) (width height : ℕ) : List ℕ :=
  swapAll data (hPairs width height)

/-- Index pairs swapped by `flip_vertical`, in loop order: for each
`y < height / 2`, every byte of row `y` swaps with the corresponding byte
of row `height - 1 - y`. -/
def vPairs (width height : ℕ) : List (ℕ × ℕ) :=
  (List.range (height / 2)).flatMap fun y =>
    (List.range (width * BYTES_PER_PIXEL)).map fun i =>
      (y * (width * BYTES_PER_PIXEL) + i,
       (height - 1 - y) * (width * BYTES_PER_PIXEL) + i)

/-- `flip_vertical` of mirror_plugin. -/
def flip_vertical (data : List ℕ) (width height : ℕ) : List ℕ :=
  swapAll data (vPairs width height)

/-- Modelled from the spec: the 180-degree rotation that moves pixel
`(x, y)` to `(width - 1 - x, height - 1 - y)`; the buffer listed row-major
with the source pixel mirrored in both axes.  This definition follows the
words of the spec and is compared against the composition of the two flips
of the source. -/
def rot180 (data : List ℕ) (width height : ℕ) : List ℕ :=
  (List.range height).flatMap fun y =>
    (List.range width).flatMap fun x =>
      (List.range BYTES_PER_PIXEL).map fun c =>
        data.getD (((height - 1 - y) * width + (width - 1 - x)) * BYTES_PER_PIXEL + c) 0

/-- Disjointness of two swap pairs: no shared index. -/
def PDisj (p q : ℕ × ℕ) : Prop :=
  p.1 ≠ q.1 ∧ p.1 ≠ q.2 ∧ p.2 ≠ q.1 ∧ p.2 ≠ q.2

/-!
## Parameter decoding and the entry points

The JSON value model.  Arrays are outside the model (both parameter
schemas are JSON objects); a value that is not an object fails struct
deserialization, an object field of the wrong type fails it as well,
missing fields take the serde defaults, and unknown keys are ignored
(default serde behaviour, no deny_unknown_fields in the source).
-/

/-- JSON values as far as the plugin parameter schemas observe them. -/
inductive Json where
  | null : Json
  | bool (b : Bool) : Json
  | num (n : ℤ) : Json
  | str (s : String) : Json
  | obj (kvs : List (String × Json)) : Json

/-- `BlurParams` of blur_plugin. -/
structure BlurParams where
  radius : ℕ
  iterations : ℕ

/-- `Default for BlurParams`: `radius = 1`, `iterations = 1`. -/
def blurDefault : BlurParams := ⟨1, 1⟩

/-- `MirrorParams` of mirror_plugin. -/
structure MirrorParams where
  horizontal : Bool
  vertical : Bool

/-- Key of the blur radius field. -/
def radiusKey : String := "radius"

/-- Key of the blur iterations field. -/
def iterationsKey : String := "iterations"

/-- Key of the horizontal flip flag. -/
def horizontalKey : String := "horizontal"

/-- Key of the vertical flip flag. -/
def verticalKey : String := "vertical"

/-- Deserialize a `u32` field: an integer JSON number in `[0, 2^32)`. -/
def jsonU32 (j : Json) : Option ℕ :=
  match j with
  | Json.num n => if 0 ≤ n ∧ n < 2 ^ 32 then some n.toNat else none
  | _ => none

/-- Deserialize a `bool` field. -/
def jsonBool (j : Json) : Option Bool :=
  match j with
  | Json.bool b => some b
  | _ => none

/-- Deserialization of `BlurParams` from a JSON value (struct-level
`serde(default)`: a missing field takes its default, a present field must
deserialize, anything but an object is an error, unknown keys ignored). -/
def blurParamsOfJson (j : Json) : Option BlurParams :=
  match j with
  | Json.obj kvs =>
    match (match List.lookup radiusKey kvs with
           | none => some 1
           | some v => jsonU32 v),
          (match List.lookup iterationsKey kvs with
           | none => some 1
           | some v => jsonU32 v) with
    | some r, some i => some ⟨r, i⟩
    | _, _ => none
  | _ => none

/-- `serde_json::from_str::<BlurParams>(params).unwrap_or_default()`:
parse failure of the whole document falls back to all defaults. -/
def parseBlurParams (p : Option Json) : BlurParams :=
  (p.bind blurParamsOfJson).getD blurDefault

/-- Deserialization of `MirrorParams` from a JSON value (field-level
`serde(default)` on both fields). -/
def mirrorParamsOfJson (j : Json) : Option MirrorParams :=
  match j with
  | Json.obj kvs =>
    match (match List.lookup horizontalKey kvs with
           | none => some false
           | some v => jsonBool v),
          (match List.lookup verticalKey kvs with
           | none => some false
           | some v => jsonBool v) with
    | some hz, some vt => some ⟨hz, vt⟩
    | _, _ => none
  | _ => none

/-- Entry point of blur_plugin (`process_image`, void-returning).  The
result is the buffer contents after the call: `none` when the buffer
pointer is null, otherwise `some` of the (possibly untouched) bytes.
`rgba_data = none` models a null buffer pointer; `params = none` models a
null parameter pointer, `params = some none` parameter text that does not
parse, and `params = some (some j)` text parsing to `j`. -/
noncomputable def blur_process_image (width height : ℕ) (rgba_data : Option (List ℕ))
    (params : Option (Option Json)) : Option (List ℕ) :=
  match rgba_data, params with
  | none, _ => none
  | some d, none => some d
  | some d, some pj =>
    if width = 0 then some d
    else if height = 0 then some d
    else
      match checked_mul width height with
      | none => some d
      | some wh =>
        match checked_mul wh BYTES_PER_PIXEL with
        | none => some d
        | some _ =>
          let bp := parseBlurParams pj
          some (weighted_blur d width height bp.radius bp.iterations)

/-- Entry point of mirror_plugin (`process_image`, returning a `c_int`
status: 0 success, 1 null pointer, 2 zero dimension, 3 size overflow,
4 parameter parse failure).  The pair is (status, buffer after call). -/
def mirror_process_image (width height : ℕ) (rgba_data : Option (List ℕ))
    (params : Option (Option Json)) : ℤ × Option (List ℕ) :=
  match rgba_data, params with
  | none, _ => (1, none)
  | some d, none => (1, some d)
  | some d, some pj =>
    if width = 0 then (2, some d)
    else if height = 0 then (2, some d)
    else
      match checked_mul width height with
      | none => (3, some d)
      | some wh =>
        match checked_mul wh BYTES_PER_PIXEL with
        | none => (3, some d)
        | some _ =>
          match pj.bind mirrorParamsOfJson with
          | none => (4, some d)
          | some mp =>
            let d1 := if mp.horizontal then flip_horizontal d width height else d
            let d2 := if mp.vertical then flip_vertical d1 width height else d1
            (0, some d2)

/-!
Concrete buffers used by the single-bright-pixel scenarios: a single-row
image whose centre pixel is bright (255 on all four channels) and whose
other pixels are dark (0 on all four channels).
-/

/-- Bright pixel, 255 on all four channels. -/
def brightPx : List ℕ := [255, 255, 255, 255]

/-- Dark pixel, 0 on all four channels. -/
def darkPx : List ℕ := [0, 0, 0, 0]

/-- A 3-wide, 1-high buffer: dark, bright, dark. -/
def rowImage3 : List ℕ := darkPx ++ brightPx ++ darkPx

/-- A 7-wide, 1-high buffer: three dark, bright, three dark. -/
def rowImage7 : List ℕ :=
  darkPx ++ darkPx ++ darkPx ++ brightPx ++ darkPx ++ darkPx ++ darkPx

/-- The 2x2 image of the concrete rotation scenario: red, green, blue,
white in row-major order. -/
def image2x2 : List ℕ :=
  [255, 0, 0, 255,
   0, 255, 0, 255,
   0, 0, 255, 255,
   255, 255, 255, 255]

/-!
## Generic list lemmas
-/

/-- Reading a just-set position. -/
theorem getD_set_self (l : List ℕ) (i a : ℕ) (h : i < l.length) :
    (l.set i a).getD i 0 = a := by
  rw [List.getD_eq_getElem?_getD, List.getElem?_set_self (by omega), Option.getD_some]

/-- Reading another position after a set. -/
theorem getD_set_ne (l : List ℕ) (i j a : ℕ) (h : i ≠ j) :
    (l.set i a).getD j 0 = l.getD j 0 := by
  rw [List.getD_eq_getElem?_getD, List.getElem?_set_ne h, ← List.getD_eq_getElem?_getD]

/-- Length of a flatMap over `List.range` with constant block length. -/
theorem flatMap_range_length {α : Type} (g : ℕ → List α) (n k : ℕ)
    (h : ∀ i, i < n → (g i).length = k) :
    ((List.range n).flatMap g).length = n * k := by
  induction n with
  | zero => simp
  | succ m ih =>
    rw [List.range_succ, List.flatMap_append, List.length_append,
      ih (fun i hi => h i (by omega))]
    simp only [List.flatMap_cons, List.flatMap_nil, List.append_nil, h m (by omega)]
    ring

/-- Positional read of a flatMap over `List.range` with constant block
length. -/
theorem flatMap_range_getD (g : ℕ → List ℕ) (n k y c : ℕ)
    (h : ∀ i, i < n → (g i).length = k) (hy : y < n) (hc : c < k) :
    ((List.range n).flatMap g).getD (y * k + c) 0 = (g y).getD c 0 := by
  induction n with
  | zero => omega
  | succ m ih =>
    rw [List.range_succ, List.flatMap_append]
    by_cases hym : y < m
    · rw [List.getD_append]
      · exact ih (fun i hi => h i (by omega)) hym
      · rw [flatMap_range_length g m k (fun i hi => h i (by omega))]
        have h1 : (y + 1) * k ≤ m * k := Nat.mul_le_mul_right k (by omega)
        calc y * k + c < y * k + k := by omega
        _ = (y + 1) * k := by ring
        _ ≤ m * k := h1
    · have hym2 : y = m := by omega
      subst hym2
      rw [List.getD_append_right]
      · rw [flatMap_range_length g y k (fun i hi => h i (by omega))]
        simp [Nat.add_sub_cancel_left]
      · rw [flatMap_range_length g y k (fun i hi => h i (by omega))]
        omega

/-- Pairwise property of a flatMap, from pairwise blocks and pairwise
relations across blocks. -/
theorem pairwise_flatMap {α β : Type} (R : β → β → Prop) (xs : List α) (g : α → List β)
    (h1 : ∀ a, a ∈ xs → (g a).Pairwise R)
    (h2 : xs.Pairwise (fun a b => ∀ u, u ∈ g a → ∀ v, v ∈ g b → R u v)) :
    (xs.flatMap g).Pairwise R := by
  induction xs with
  | nil => simp
  | cons a tl ih =>
    rw [List.flatMap_cons, List.pairwise_append]
    obtain ⟨hhd, htl⟩ := List.pairwise_cons.mp h2
    refine ⟨h1 a (List.mem_cons_self a tl), ih (fun b hb => h1 b (List.mem_cons_of_mem a hb)) htl, ?_⟩
    intro u hu v hv
    obtain ⟨b, hb, hvb⟩ := List.mem_flatMap.mp hv
    exact hhd b hb u hu v hvb

/-!
## Index arithmetic
-/

/-- Injectivity of the block index encoding `y * W + off` with `off < W`. -/
theorem encode_inj (W y off y2 off2 : ℕ) (h : off < W) (h2 : off2 < W)
    (heq : y * W + off = y2 * W + off2) : y = y2 ∧ off = off2 := by
  have hW : 0 < W := by omega
  have e1 : (W * y + off) % W = off := by
    rw [Nat.mul_add_mod, Nat.mod_eq_of_lt h]
  have e2 : (W * y2 + off2) % W = off2 := by
    rw [Nat.mul_add_mod, Nat.mod_eq_of_lt h2]
  have e3 : (W * y + off) / W = y := by
    rw [Nat.mul_add_div hW, Nat.div_eq_of_lt h, Nat.add_zero]
  have e4 : (W * y2 + off2) / W = y2 := by
    rw [Nat.mul_add_div hW, Nat.div_eq_of_lt h2, Nat.add_zero]
  have heq2 : W * y + off = W * y2 + off2 := by
    rw [Nat.mul_comm W y, Nat.mul_comm W y2]
    omega
  constructor
  · rw [← e3, ← e4, heq2]
  · rw [← e1, ← e2, heq2]

/-- Every byte index of pixel `(x, y)`, channel `c`, is inside the
`width * height * 4` view. -/
theorem pixel_index_lt (w h y x c : ℕ) (hy : y < h) (hx : x < w) (hc : c < 4) :
    (y * w + x) * 4 + c < w * h * 4 := by
  have h1 : y * w + x + 1 ≤ h * w := by
    have h2 : (y + 1) * w ≤ h * w := Nat.mul_le_mul_right w hy
    calc y * w + x + 1 ≤ y * w + w := by omega
    _ = (y + 1) * w := by ring
    _ ≤ h * w := h2
  calc (y * w + x) * 4 + c < (y * w + x + 1) * 4 := by omega
  _ ≤ (h * w) * 4 := Nat.mul_le_mul_right 4 h1
  _ = w * h * 4 := by ring

/-- Decomposition of a byte index inside the view into (row, column,
channel). -/
theorem index_decomp (w h n : ℕ) (hn : n < w * h * 4) :
    ∃ y x c, y < h ∧ x < w ∧ c < 4 ∧ n = (y * w + x) * 4 + c := by
  have hw : 0 < w := by
    rcases Nat.eq_zero_or_pos w with h0 | h0
    · subst h0; simp at hn
    · exact h0
  refine ⟨n / 4 / w, n / 4 % w, n % 4, ?_, Nat.mod_lt _ hw, by omega, ?_⟩
  · have h4 : n / 4 < w * h := by omega
    exact Nat.div_lt_of_lt_mul h4
  · have e1 : 4 * (n / 4) + n % 4 = n := Nat.div_add_mod n 4
    have e2 : w * (n / 4 / w) + n / 4 % w = n / 4 := Nat.div_add_mod (n / 4) w
    calc n = (n / 4) * 4 + n % 4 := by omega
    _ = (w * (n / 4 / w) + n / 4 % w) * 4 + n % 4 := by rw [e2]
    _ = (n / 4 / w * w + n / 4 % w) * 4 + n % 4 := by ring

/-!
## Swap machinery
-/

/-- A swap preserves the length. -/
theorem listSwap_length (l : List ℕ) (i j : ℕ) : (listSwap l i j).length = l.length := by
  simp [listSwap]

/-- Reading the first swapped position. -/
theorem listSwap_getD_left (l : List ℕ) (i j : ℕ) (hi : i < l.length) (hj : j < l.length) :
    (listSwap l i j).getD i 0 = l.getD j 0 := by
  by_cases hij : i = j
  · subst hij
    unfold listSwap
    rw [getD_set_self _ _ _ (by simp [hi])]
  · unfold listSwap
    rw [getD_set_ne _ _ _ _ (Ne.symm hij), getD_set_self _ _ _ hi]

/-- Reading the second swapped position. -/
theorem listSwap_getD_right (l : List ℕ) (i j : ℕ) (hi : i < l.length) (hj : j < l.length) :
    (listSwap l i j).getD j 0 = l.getD i 0 := by
  unfold listSwap
  rw [getD_set_self _ _ _ (by simp [hj])]

/-- Reading an untouched position. -/
theorem listSwap_getD_other (l : List ℕ) (i j n : ℕ) (h1 : i ≠ n) (h2 : j ≠ n) :
    (listSwap l i j).getD n 0 = l.getD n 0 := by
  unfold listSwap
  rw [getD_set_ne _ _ _ _ h2, getD_set_ne _ _ _ _ h1]

/-- Unfolding one swap of the fold. -/
theorem swapAll_cons (l : List ℕ) (p : ℕ × ℕ) (tl : List (ℕ × ℕ)) :
    swapAll l (p :: tl) = swapAll (listSwap l p.1 p.2) tl := rfl

/-- The fold of swaps preserves the length. -/
theorem swapAll_length (ps : List (ℕ × ℕ)) (l : List ℕ) :
    (swapAll l ps).length = l.length := by
  induction ps generalizing l with
  | nil => rfl
  | cons p tl ih => rw [swapAll_cons, ih, listSwap_length]

/-- A position touched by no pair is unchanged by the fold of swaps. -/
theorem swapAll_getD_notin (ps : List (ℕ × ℕ)) (l : List ℕ) (n : ℕ)
    (h : ∀ p, p ∈ ps → p.1 ≠ n ∧ p.2 ≠ n) :
    (swapAll l ps).getD n 0 = l.getD n 0 := by
  induction ps generalizing l with
  | nil => rfl
  | cons p tl ih =>
    rw [swapAll_cons, ih _ (fun q hq => h q (List.mem_cons_of_mem p hq)),
      listSwap_getD_other _ _ _ _ (h p (List.mem_cons_self p tl)).1
        (h p (List.mem_cons_self p tl)).2]

/-- With pairwise disjoint in-range pairs, the first component of a pair
reads the second. -/
theorem swapAll_getD_mem_left (ps : List (ℕ × ℕ)) (l : List ℕ) (i j : ℕ)
    (hp : ps.Pairwise PDisj) (hb : ∀ p, p ∈ ps → p.1 < l.length ∧ p.2 < l.length)
    (hm : (i, j) ∈ ps) : (swapAll l ps).getD i 0 = l.getD j 0 := by
  induction ps generalizing l with
  | nil => cases hm
  | cons p tl ih =>
    obtain ⟨hhd, htl⟩ := List.pairwise_cons.mp hp
    rw [swapAll_cons]
    rcases List.mem_cons.mp hm with heq | hmem
    · have hep : p = (i, j) := heq.symm
      subst hep
      have hnotin : ∀ q, q ∈ tl → q.1 ≠ i ∧ q.2 ≠ i := by
        intro q hq
        have hd := hhd q hq
        exact ⟨Ne.symm hd.1, Ne.symm hd.2.1⟩
      rw [swapAll_getD_notin tl _ i hnotin,
        listSwap_getD_left _ _ _ (hb (i, j) (List.mem_cons_self _ _)).1
          (hb (i, j) (List.mem_cons_self _ _)).2]
    · have hd : PDisj p (i, j) := hhd (i, j) hmem
      have hb2 : ∀ q, q ∈ tl → q.1 < (listSwap l p.1 p.2).length ∧ q.2 < (listSwap l p.1 p.2).length := by
        intro q hq
        rw [listSwap_length]
        exact hb q (List.mem_cons_of_mem p hq)
      rw [ih _ htl hb2 hmem, listSwap_getD_other _ _ _ _ hd.2.1 hd.2.2.2]

/-- With pairwise disjoint in-range pairs, the second component of a pair
reads the first. -/
theorem swapAll_getD_mem_right (ps : List (ℕ × ℕ)) (l : List ℕ) (i j : ℕ)
    (hp : ps.Pairwise PDisj) (hb : ∀ p, p ∈ ps → p.1 < l.length ∧ p.2 < l.length)
    (hm : (i, j) ∈ ps) : (swapAll l ps).getD j 0 = l.getD i 0 := by
  induction ps generalizing l with
  | nil => cases hm
  | cons p tl ih =>
    obtain ⟨hhd, htl⟩ := List.pairwise_cons.mp hp
    rw [swapAll_cons]
    rcases List.mem_cons.mp hm with heq | hmem
    · have hep : p = (i, j) := heq.symm
      subst hep
      have hnotin : ∀ q, q ∈ tl → q.1 ≠ j ∧ q.2 ≠ j := by
        intro q hq
        have hd := hhd q hq
        exact ⟨Ne.symm hd.2.2.1, Ne.symm hd.2.2.2⟩
      rw [swapAll_getD_notin tl _ j hnotin,
        listSwap_getD_right _ _ _ (hb (i, j) (List.mem_cons_self _ _)).1
          (hb (i, j) (List.mem_cons_self _ _)).2]
    · have hd : PDisj p (i, j) := hhd (i, j) hmem
      have hb2 : ∀ q, q ∈ tl → q.1 < (listSwap l p.1 p.2).length ∧ q.2 < (listSwap l p.1 p.2).length := by
        intro q hq
        rw [listSwap_length]
        exact hb q (List.mem_cons_of_mem p hq)
      rw [ih _ htl hb2 hmem, listSwap_getD_other _ _ _ _ hd.1 hd.2.2.1]

/-!
## Facts about the flip pair lists
-/

/-- Two distinct rows give distinct byte indices. -/
theorem row_encode_ne (W r1 r2 i1 i2 : ℕ) (hi1 : i1 < W) (hi2 : i2 < W) (hr : r1 ≠ r2) :
    r1 * W + i1 ≠ r2 * W + i2 :=
  fun heq => hr (encode_inj W r1 i1 r2 i2 hi1 hi2 heq).1

/-- Every pair of `hPairs` comes from a row, a column below `width / 2`
and a channel. -/
theorem hPairs_mem (w h : ℕ) (pr : ℕ × ℕ) (hm : pr ∈ hPairs w h) :
    ∃ y x i, y < h ∧ x < w / 2 ∧ i < 4 ∧
      pr = (y * (w * 4) + x * 4 + i, y * (w * 4) + (w - 1 - x) * 4 + i) := by
  simp only [hPairs, BYTES_PER_PIXEL, List.mem_flatMap, List.mem_map, List.mem_range] at hm
  obtain ⟨y, hy, x, hx, i, hi, hpr⟩ := hm
  exact ⟨y, x, i, hy, hx, hi, hpr.symm⟩

/-- Membership construction for `hPairs`. -/
theorem hPairs_mem_intro (w h y x i : ℕ) (hy : y < h) (hx : x < w / 2) (hi : i < 4) :
    (y * (w * 4) + x * 4 + i, y * (w * 4) + (w - 1 - x) * 4 + i) ∈ hPairs w h := by
  simp only [hPairs, BYTES_PER_PIXEL, List.mem_flatMap, List.mem_map, List.mem_range]
  exact ⟨y, hy, x, hx, i, hi, rfl⟩

/-- Every pair of `vPairs` comes from a row below `height / 2` and an
offset inside the row. -/
theorem vPairs_mem (w h : ℕ) (pr : ℕ × ℕ) (hm : pr ∈ vPairs w h) :
    ∃ y i, y < h / 2 ∧ i < w * 4 ∧
      pr = (y * (w * 4) + i, (h - 1 - y) * (w * 4) + i) := by
  simp only [vPairs, BYTES_PER_PIXEL, List.mem_flatMap, List.mem_map, List.mem_range] at hm
  obtain ⟨y, hy, i, hi, hpr⟩ := hm
  exact ⟨y, i, hy, hi, hpr.symm⟩

/-- Membership construction for `vPairs`. -/
theorem vPairs_mem_intro (w h y i : ℕ) (hy : y < h / 2) (hi : i < w * 4) :
    (y * (w * 4) + i, (h - 1 - y) * (w * 4) + i) ∈ vPairs w h := by
  simp only [vPairs, BYTES_PER_PIXEL, List.mem_flatMap, List.mem_map, List.mem_range]
  exact ⟨y, hy, i, hi, rfl⟩

/-- The pairs of `hPairs` are pairwise disjoint. -/
theorem hPairs_pairwise (w h : ℕ) : (hPairs w h).Pairwise PDisj := by
  unfold hPairs
  apply pairwise_flatMap
  · intro y hy
    apply pairwise_flatMap
    · intro x hx
      rw [List.pairwise_map]
      apply List.Pairwise.imp_of_mem ?_ (List.pairwise_lt_range BYTES_PER_PIXEL)
      intro i1 i2 h1 h2 hlt
      rw [List.mem_range] at h1 h2
      simp only [List.mem_range, BYTES_PER_PIXEL] at *
      exact ⟨by omega, by omega, by omega, by omega⟩
    · apply List.Pairwise.imp_of_mem ?_ (List.pairwise_lt_range (w / 2))
      intro x1 x2 h1 h2 hlt u hu v hv
      rw [List.mem_range] at h1 h2
      simp only [List.mem_map, List.mem_range, BYTES_PER_PIXEL] at hu hv
      obtain ⟨i1, hi1, hu2⟩ := hu
      obtain ⟨i2, hi2, hv2⟩ := hv
      subst hu2
      subst hv2
      exact ⟨by omega, by omega, by omega, by omega⟩
  · apply List.Pairwise.imp_of_mem ?_ (List.pairwise_lt_range h)
    intro y1 y2 h1 h2 hlt u hu v hv
    rw [List.mem_range] at h1 h2
    simp only [List.mem_flatMap, List.mem_map, List.mem_range, BYTES_PER_PIXEL] at hu hv
    obtain ⟨x1, hx1, i1, hi1, hu2⟩ := hu
    obtain ⟨x2, hx2, i2, hi2, hv2⟩ := hv
    subst hu2
    subst hv2
    have hne : y1 ≠ y2 := by omega
    refine ⟨?_, ?_, ?_, ?_⟩ <;>
      simp only [ne_eq, Nat.add_assoc] <;>
      exact row_encode_ne (w * 4) y1 y2 _ _ (by omega) (by omega) hne

/-- The pairs of `vPairs` are pairwise disjoint. -/
theorem vPairs_pairwise (w h : ℕ) : (vPairs w h).Pairwise PDisj := by
  unfold vPairs
  apply pairwise_flatMap
  · intro y hy
    rw [List.pairwise_map, List.mem_range] at *
    apply List.Pairwise.imp_of_mem ?_ (List.pairwise_lt_range (w * BYTES_PER_PIXEL))
    intro i1 i2 h1 h2 hlt
    rw [List.mem_range] at h1 h2
    simp only [BYTES_PER_PIXEL] at *
    have hrne : y ≠ h - 1 - y := by omega
    refine ⟨by omega, ?_, ?_, by omega⟩
    · exact row_encode_ne (w * 4) y (h - 1 - y) i1 i2 (by omega) (by omega) hrne
    · exact row_encode_ne (w * 4) (h - 1 - y) y i1 i2 (by omega) (by omega) (Ne.symm hrne)
  · apply List.Pairwise.imp_of_mem ?_ (List.pairwise_lt_range (h / 2))
    intro y1 y2 h1 h2 hlt u hu v hv
    rw [List.mem_range] at h1 h2
    simp only [List.mem_map, List.mem_range, BYTES_PER_PIXEL] at hu hv
    obtain ⟨i1, hi1, hu2⟩ := hu
    obtain ⟨i2, hi2, hv2⟩ := hv
    subst hu2
    subst hv2
    refine ⟨?_, ?_, ?_, ?_⟩ <;>
      exact row_encode_ne (w * 4) _ _ _ _ (by omega) (by omega) (by omega)

/-- All indices of `hPairs` lie inside the `width * height * 4` view. -/
theorem hPairs_bounds (w h : ℕ) (pr : ℕ × ℕ) (hm : pr ∈ hPairs w h) :
    pr.1 < w * h * 4 ∧ pr.2 < w * h * 4 := by
  obtain ⟨y, x, i, hy, hx, hi, hpr⟩ := hPairs_mem w h pr hm
  subst hpr
  constructor
  · have he : y * (w * 4) + x * 4 + i = (y * w + x) * 4 + i := by ring
    rw [he]
    exact pixel_index_lt w h y x i hy (by omega) hi
  · have he : y * (w * 4) + (w - 1 - x) * 4 + i = (y * w + (w - 1 - x)) * 4 + i := by ring
    rw [he]
    exact pixel_index_lt w h y (w - 1 - x) i hy (by omega) hi

/-- All indices of `vPairs` lie inside the `width * height * 4` view. -/
theorem vPairs_bounds (w h : ℕ) (pr : ℕ × ℕ) (hm : pr ∈ vPairs w h) :
    pr.1 < w * h * 4 ∧ pr.2 < w * h * 4 := by
  obtain ⟨y, i, hy, hi, hpr⟩ := vPairs_mem w h pr hm
  subst hpr
  have hd : ∃ x c, x < w ∧ c < 4 ∧ i = x * 4 + c := by
    refine ⟨i / 4, i % 4, by omega, by omega, by omega⟩
  obtain ⟨x, c, hx, hc, hic⟩ := hd
  subst hic
  constructor
  · have he : y * (w * 4) + (x * 4 + c) = (y * w + x) * 4 + c := by ring
    rw [he]
    exact pixel_index_lt w h y x c (by omega) hx hc
  · have he : (h - 1 - y) * (w * 4) + (x * 4 + c) = ((h - 1 - y) * w + x) * 4 + c := by ring
    rw [he]
    exact pixel_index_lt w h (h - 1 - y) x c (by omega) hx hc

/-- `flip_horizontal` preserves the buffer length. -/
theorem flip_horizontal_length (d : List ℕ) (w h : ℕ) :
    (flip_horizontal d w h).length = d.length := swapAll_length _ _

/-- `flip_vertical` preserves the buffer length. -/
theorem flip_vertical_length (d : List ℕ) (w h : ℕ) :
    (flip_vertical d w h).length = d.length := swapAll_length _ _

/-- Pointwise reading of `flip_horizontal`: channel `c` of pixel `(x, y)`
afterwards is channel `c` of pixel `(width - 1 - x, y)` before. -/
theorem flip_horizontal_getD (d : List ℕ) (w h y x c : ℕ) (hl : d.length = w * h * 4)
    (hy : y < h) (hx : x < w) (hc : c < 4) :
    (flip_horizontal d w h).getD ((y * w + x) * 4 + c) 0 =
      d.getD ((y * w + (w - 1 - x)) * 4 + c) 0 := by
  have hb : ∀ p, p ∈ hPairs w h → p.1 < d.length ∧ p.2 < d.length := by
    intro p hp
    rw [hl]
    exact hPairs_bounds w h p hp
  have hA : (y * w + x) * 4 + c = y * (w * 4) + x * 4 + c := by ring
  have hB : (y * w + (w - 1 - x)) * 4 + c = y * (w * 4) + (w - 1 - x) * 4 + c := by ring
  by_cases hx2 : x < w / 2
  · rw [hA, hB]
    exact swapAll_getD_mem_left _ _ _ _ (hPairs_pairwise w h) hb
      (hPairs_mem_intro w h y x c hy hx2 hc)
  · by_cases hmid : x = w - 1 - x
    · have hnotin : ∀ p, p ∈ hPairs w h → p.1 ≠ (y * w + x) * 4 + c ∧ p.2 ≠ (y * w + x) * 4 + c := by
        intro p hp
        obtain ⟨y2, x2, i, hy2, hx2b, hi, hpr⟩ := hPairs_mem w h p hp
        subst hpr
        constructor
        · show y2 * (w * 4) + x2 * 4 + i ≠ (y * w + x) * 4 + c
          intro heq
          rw [hA] at heq
          have heq2 : y2 * (w * 4) + (x2 * 4 + i) = y * (w * 4) + (x * 4 + c) := by omega
          obtain ⟨he1, he2⟩ := encode_inj (w * 4) y2 (x2 * 4 + i) y (x * 4 + c)
            (by omega) (by omega) heq2
          omega
        · show y2 * (w * 4) + (w - 1 - x2) * 4 + i ≠ (y * w + x) * 4 + c
          intro heq
          rw [hA] at heq
          have heq2 : y2 * (w * 4) + ((w - 1 - x2) * 4 + i) = y * (w * 4) + (x * 4 + c) := by omega
          obtain ⟨he1, he2⟩ := encode_inj (w * 4) y2 ((w - 1 - x2) * 4 + i) y (x * 4 + c)
            (by omega) (by omega) heq2
          omega
      rw [flip_horizontal, swapAll_getD_notin _ _ _ hnotin, ← hmid]
    · have hx2w : w - 1 - x < w / 2 := by omega
      have hxx : w - 1 - (w - 1 - x) = x := by omega
      have hpair := hPairs_mem_intro w h y (w - 1 - x) c hy hx2w hc
      rw [hxx] at hpair
      rw [hA, hB]
      exact swapAll_getD_mem_right _ _ _ _ (hPairs_pairwise w h) hb hpair

/-- Pointwise reading of `flip_vertical`: channel `c` of pixel `(x, y)`
afterwards is channel `c` of pixel `(x, height - 1 - y)` before. -/
theorem flip_vertical_getD (d : List ℕ) (w h y x c : ℕ) (hl : d.length = w * h * 4)
    (hy : y < h) (hx : x < w) (hc : c < 4) :
    (flip_vertical d w h).getD ((y * w + x) * 4 + c) 0 =
      d.getD (((h - 1 - y) * w + x) * 4 + c) 0 := by
  have hb : ∀ p, p ∈ vPairs w h → p.1 < d.length ∧ p.2 < d.length := by
    intro p hp
    rw [hl]
    exact vPairs_bounds w h p hp
  have hA : (y * w + x) * 4 + c = y * (w * 4) + (x * 4 + c) := by ring
  have hB : ((h - 1 - y) * w + x) * 4 + c = (h - 1 - y) * (w * 4) + (x * 4 + c) := by ring
  by_cases hy2 : y < h / 2
  · rw [hA, hB]
    exact swapAll_getD_mem_left _ _ _ _ (vPairs_pairwise w h) hb
      (vPairs_mem_intro w h y (x * 4 + c) hy2 (by omega))
  · by_cases hmid : y = h - 1 - y
    · have hnotin : ∀ p, p ∈ vPairs w h → p.1 ≠ (y * w + x) * 4 + c ∧ p.2 ≠ (y * w + x) * 4 + c := by
        intro p hp
        obtain ⟨y2, i, hy2b, hi, hpr⟩ := vPairs_mem w h p hp
        subst hpr
        constructor
        · show y2 * (w * 4) + i ≠ (y * w + x) * 4 + c
          intro heq
          rw [hA] at heq
          obtain ⟨he1, he2⟩ := encode_inj (w * 4) y2 i y (x * 4 + c)
            (by omega) (by omega) heq
          omega
        · show (h - 1 - y2) * (w * 4) + i ≠ (y * w + x) * 4 + c
          intro heq
          rw [hA] at heq
          obtain ⟨he1, he2⟩ := encode_inj (w * 4) (h - 1 - y2) i y (x * 4 + c)
            (by omega) (by omega) heq
          omega
      rw [flip_vertical, swapAll_getD_notin _ _ _ hnotin]
      rw [← hmid]
    · have hy2h : h - 1 - y < h / 2 := by omega
      have hyy : h - 1 - (h - 1 - y) = y := by omega
      have hpair := vPairs_mem_intro w h (h - 1 - y) (x * 4 + c) hy2h (by omega)
      rw [hyy] at hpair
      rw [hA, hB]
      exact swapAll_getD_mem_right _ _ _ _ (vPairs_pairwise w h) hb hpair

/-- Positional read of a map over `List.range`. -/
theorem map_range_getD (f : ℕ → ℕ) (k c : ℕ) (hc : c < k) :
    ((List.range k).map f).getD c 0 = f c := by
  rw [List.getD_eq_getElem _ _ (by simpa using hc)]
  simp

/-- Length of `rot180`. -/
theorem rot180_length (d : List ℕ) (w h : ℕ) : (rot180 d w h).length = w * h * 4 := by
  unfold rot180
  rw [flatMap_range_length _ h (w * 4)]
  · ring
  · intro y hy
    rw [flatMap_range_length _ w 4]
    · intro x hx
      simp [BYTES_PER_PIXEL]

/-- Pointwise reading of `rot180`. -/
theorem rot180_getD (d : List ℕ) (w h y x c : ℕ) (hy : y < h) (hx : x < w) (hc : c < 4) :
    (rot180 d w h).getD ((y * w + x) * 4 + c) 0 =
      d.getD (((h - 1 - y) * w + (w - 1 - x)) * 4 + c) 0 := by
  unfold rot180
  have hidx : (y * w + x) * 4 + c = y * (w * 4) + (x * 4 + c) := by ring
  rw [hidx, flatMap_range_getD _ h (w * 4) y (x * 4 + c)
      (fun i hi => by
        rw [flatMap_range_length _ w 4 (fun j hj => by simp [BYTES_PER_PIXEL])])
      hy (by omega),
    flatMap_range_getD _ w 4 x c (fun j hj => by simp [BYTES_PER_PIXEL]) hx hc]
  simp only [BYTES_PER_PIXEL]
  rw [map_range_getD _ 4 c hc]

/-- Equality of byte lists from equal lengths and pointwise equal reads. -/
theorem list_eq_of_getD (l1 l2 : List ℕ) (h1 : l1.length = l2.length)
    (h2 : ∀ n, n < l1.length → l1.getD n 0 = l2.getD n 0) : l1 = l2 := by
  apply List.ext_getElem h1
  intro n hn1 hn2
  have h3 := h2 n hn1
  rwa [List.getD_eq_getElem _ _ hn1, List.getD_eq_getElem _ _ hn2] at h3

/-- Composing the two flips, in the order of the mirror plugin entry point
(horizontal first), equals the 180-degree rotation. -/
theorem flipVH_eq_rot180 (data : List ℕ) (w h : ℕ) (hl : data.length = w * h * 4) :
    flip_vertical (flip_horizontal data w h) w h = rot180 data w h := by
  have hl2 : (flip_horizontal data w h).length = w * h * 4 := by
    rw [flip_horizontal_length, hl]
  apply list_eq_of_getD
  · rw [flip_vertical_length, hl2, rot180_length]
  · intro n hn
    have hn2 : n < w * h * 4 := by rwa [flip_vertical_length, hl2] at hn
    obtain ⟨y, x, c, hy, hx, hc, hn3⟩ := index_decomp w h n hn2
    subst hn3
    rw [flip_vertical_getD _ w h y x c hl2 hy hx hc,
      flip_horizontal_getD _ w h (h - 1 - y) x c hl (by omega) hx hc,
      rot180_getD _ w h y x c hy hx hc]

/-- Composing the two flips in the other order also equals the 180-degree
rotation. -/
theorem flipHV_eq_rot180 (data : List ℕ) (w h : ℕ) (hl : data.length = w * h * 4) :
    flip_horizontal (flip_vertical data w h) w h = rot180 data w h := by
  have hl2 : (flip_vertical data w h).length = w * h * 4 := by
    rw [flip_vertical_length, hl]
  apply list_eq_of_getD
  · rw [flip_horizontal_length, hl2, rot180_length]
  · intro n hn
    have hn2 : n < w * h * 4 := by rwa [flip_horizontal_length, hl2] at hn
    obtain ⟨y, x, c, hy, hx, hc, hn3⟩ := index_decomp w h n hn2
    subst hn3
    rw [flip_horizontal_getD _ w h y x c hl2 hy hx hc,
      flip_vertical_getD _ w h y (w - 1 - x) c hl hy (by omega) hc,
      rot180_getD _ w h y x c hy hx hc]

/-- C6: for every image of every dimension, each flip is an involution:
applying `flip_horizontal` twice restores the original buffer exactly, and
applying `flip_vertical` twice restores the original buffer exactly. -/
theorem claim_C6_flip_involution (data : List ℕ) (w h : ℕ) (hl : data.length = w * h * 4) :
    flip_horizontal (flip_horizontal data w h) w h = data ∧
    flip_vertical (flip_vertical data w h) w h = data := by
  have hl2 : (flip_horizontal data w h).length = w * h * 4 := by
    rw [flip_horizontal_length, hl]
  have hl3 : (flip_vertical data w h).length = w * h * 4 := by
    rw [flip_vertical_length, hl]
  constructor
  · apply list_eq_of_getD
    · rw [flip_horizontal_length, hl2, hl]
    · intro n hn
      have hn2 : n < w * h * 4 := by rwa [flip_horizontal_length, hl2] at hn
      obtain ⟨y, x, c, hy, hx, hc, hn3⟩ := index_decomp w h n hn2
      subst hn3
      rw [flip_horizontal_getD _ w h y x c hl2 hy hx hc,
        flip_horizontal_getD _ w h y (w - 1 - x) c hl hy (by omega) hc,
        show w - 1 - (w - 1 - x) = x by omega]
  · apply list_eq_of_getD
    · rw [flip_vertical_length, hl3, hl]
    · intro n hn
      have hn2 : n < w * h * 4 := by rwa [flip_vertical_length, hl3] at hn
      obtain ⟨y, x, c, hy, hx, hc, hn3⟩ := index_decomp w h n hn2
      subst hn3
      rw [flip_vertical_getD _ w h y x c hl3 hy hx hc,
        flip_vertical_getD _ w h (h - 1 - y) x c hl (by omega) hx hc,
        show h - 1 - (h - 1 - y) = y by omega]

/-- C6 witness: both involutions evaluated on the concrete 2x2 image. -/
theorem claim_C6_flip_involution_witness :
    flip_horizontal (flip_horizontal image2x2 2 2) 2 2 = image2x2 ∧
    flip_vertical (flip_vertical image2x2 2 2) 2 2 = image2x2 :=
  claim_C6_flip_involution image2x2 2 2 (by decide)

/-- C7: for every image, applying `flip_horizontal` then `flip_vertical`
equals applying `flip_vertical` then `flip_horizontal`, both compositions
equal the 180-degree rotation moving pixel `(x, y)` to
`(width - 1 - x, height - 1 - y)`, and concretely on the 2x2 image with
pixels red, green, blue, white (row-major) the result is white, blue,
green, red. -/
theorem claim_C7_flips_compose_rot180 (data : List ℕ) (w h : ℕ)
    (hl : data.length = w * h * 4) :
    flip_vertical (flip_horizontal data w h) w h =
      flip_horizontal (flip_vertical data w h) w h ∧
    flip_vertical (flip_horizontal data w h) w h = rot180 data w h ∧
    flip_vertical (flip_horizontal image2x2 2 2) 2 2 =
      [255, 255, 255, 255,
       0, 0, 255, 255,
       0, 255, 0, 255,
       255, 0, 0, 255] := by
  refine ⟨?_, flipVH_eq_rot180 data w h hl, by decide⟩
  rw [flipVH_eq_rot180 data w h hl, flipHV_eq_rot180 data w h hl]

/-- C7 witness: the composition facts evaluated on the concrete 2x2
image. -/
theorem claim_C7_flips_compose_rot180_witness :
    flip_vertical (flip_horizontal image2x2 2 2) 2 2 =
      flip_horizontal (flip_vertical image2x2 2 2) 2 2 ∧
    flip_vertical (flip_horizontal image2x2 2 2) 2 2 = rot180 image2x2 2 2 ∧
    flip_vertical (flip_horizontal image2x2 2 2) 2 2 =
      [255, 255, 255, 255,
       0, 0, 255, 255,
       0, 255, 0, 255,
       255, 0, 0, 255] :=
  claim_C7_flips_compose_rot180 image2x2 2 2 (by decide)

/-!
## Facts about the blur engine
-/

/-- Bounds on the scanned neighbour coordinates: the window is clipped to
the image and to the radius around the centre. -/
theorem neighbor_list_mem_bounds (w h cx cy r : ℕ) (p : ℕ × ℕ)
    (hp : p ∈ neighbor_list w h cx cy r) :
    p.1 < h ∧ p.2 < w ∧ cy - r ≤ p.1 ∧ cx - r ≤ p.2 ∧
      p.1 < cy + r + 1 ∧ p.2 < cx + r + 1 := by
  simp only [neighbor_list, List.mem_flatMap, List.mem_map, List.mem_range'_1] at hp
  obtain ⟨ny, ⟨h1, h2⟩, nx, ⟨h3, h4⟩, hpe⟩ := hp
  rw [← hpe]
  refine ⟨by omega, by omega, by omega, by omega, by omega, by omega⟩

/-- The centre pixel is always scanned. -/
theorem center_mem_neighbor_list (w h cx cy r : ℕ) (hx : cx < w) (hy : cy < h) :
    (cy, cx) ∈ neighbor_list w h cx cy r := by
  simp only [neighbor_list, List.mem_flatMap, List.mem_map, List.mem_range'_1]
  exact ⟨cy, ⟨by omega, by omega⟩, cx, ⟨by omega, by omega⟩, rfl⟩

/-- Every neighbour weight is positive. -/
theorem nweight_pos (cx cy : ℕ) (p : ℕ × ℕ) : 0 < nweight cx cy p := by
  unfold nweight
  apply div_pos one_pos
  exact lt_of_lt_of_le one_pos (le_max_left _ _)

/-- The accumulated total weight is positive. -/
theorem totWeight_pos (w h cx cy r : ℕ) (hx : cx < w) (hy : cy < h) :
    0 < totWeight w h cx cy r := by
  unfold totWeight
  apply List.sum_pos
  · intro a ha
    obtain ⟨p, hp, hpe⟩ := List.mem_map.mp ha
    rw [← hpe]
    exact nweight_pos cx cy p
  · intro hemp
    have hmem := center_mem_neighbor_list w h cx cy r hx hy
    rw [List.map_eq_nil_iff.mp hemp] at hmem
    cases hmem

/-- Length of one blur pass. -/
theorem blur_pass_length (data : List ℕ) (w h r : ℕ) :
    (blur_pass data w h r).length = w * h * 4 := by
  unfold blur_pass
  rw [flatMap_range_length _ h (w * 4)]
  · ring
  · intro y hy
    rw [flatMap_range_length _ w 4]
    intro x hx
    simp [accumulate_neighborhood]

/-- Pointwise reading of one blur pass: channel `c` of pixel `(x, y)` is
the rounded weighted average of that channel over the neighbourhood. -/
theorem blur_pass_getD (data : List ℕ) (w h r y x c : ℕ) (hy : y < h) (hx : x < w) (hc : c < 4) :
    (blur_pass data w h r).getD ((y * w + x) * 4 + c) 0 =
      toByte (chanSum data w h x y r c / totWeight w h x y r) := by
  unfold blur_pass
  have hidx : (y * w + x) * 4 + c = y * (w * 4) + (x * 4 + c) := by ring
  rw [hidx, flatMap_range_getD _ h (w * 4) y (x * 4 + c)
      (fun i hi => by
        rw [flatMap_range_length _ w 4]
        intro j hj
        simp [accumulate_neighborhood])
      hy (by omega),
    flatMap_range_getD _ w 4 x c (fun j hj => by simp [accumulate_neighborhood]) hx hc]
  simp only [accumulate_neighborhood]
  interval_cases c <;> simp

/-- With radius 0 the scanned window is the centre pixel alone. -/
theorem neighbor_list_radius_zero (w h cx cy : ℕ) (hx : cx < w) (hy : cy < h) :
    neighbor_list w h cx cy 0 = [(cy, cx)] := by
  unfold neighbor_list
  rw [show min (cy + 0 + 1) h - (cy - 0) = 1 by omega,
    show min (cx + 0 + 1) w - (cx - 0) = 1 by omega,
    show cy - 0 = cy from rfl, show cx - 0 = cx from rfl]
  simp

/-- The centre pixel has weight exactly 1. -/
theorem nweight_center (cx cy : ℕ) : nweight cx cy (cy, cx) = 1 := by
  unfold nweight
  simp [Nat.dist_self]

/-- Rounding then casting a byte value gives it back. -/
theorem toByte_natCast (v : ℕ) (hv : v ≤ 255) : toByte (v : ℝ) = v := by
  unfold toByte rustRound asU8
  rw [if_pos (by positivity)]
  have hf : ⌊(v : ℝ) + 1 / 2⌋ = (v : ℤ) := by
    rw [Int.floor_eq_iff]
    push_cast
    constructor
    · linarith
    · linarith
  rw [hf]
  omega

/-- A pass with radius 0 is the identity on any well-formed buffer. -/
theorem blur_pass_radius_zero (data : List ℕ) (w h : ℕ) (hl : data.length = w * h * 4)
    (hbytes : ∀ b ∈ data, b < 256) : blur_pass data w h 0 = data := by
  apply list_eq_of_getD
  · rw [blur_pass_length, hl]
  · intro n hn
    have hn2 : n < w * h * 4 := by rwa [blur_pass_length] at hn
    obtain ⟨y, x, c, hy, hx, hc, hn3⟩ := index_decomp w h n hn2
    subst hn3
    rw [blur_pass_getD data w h 0 y x c hy hx hc]
    have hb : data.getD ((y * w + x) * 4 + c) 0 ≤ 255 := by
      have hlt : (y * w + x) * 4 + c < data.length := by
        rw [hl]
        exact pixel_index_lt w h y x c hy hx hc
      rw [List.getD_eq_getElem _ _ hlt]
      exact Nat.le_of_lt_succ (hbytes _ (List.getElem_mem hlt))
    have hcs : chanSum data w h x y 0 c = (data.getD ((y * w + x) * 4 + c) 0 : ℕ) := by
      unfold chanSum
      rw [neighbor_list_radius_zero w h x y hx hy]
      simp [nweight_center, BYTES_PER_PIXEL]
    have htw : totWeight w h x y 0 = 1 := by
      unfold totWeight
      rw [neighbor_list_radius_zero w h x y hx hy]
      simp [nweight_center]
    rw [hcs, htw, div_one, toByte_natCast _ hb]

/-- C3: for every valid image buffer and every number of iterations
`n ≥ 1`, the weighted blur with radius 0 is the identity transform: the
neighbourhood of each pixel is itself with weight 1, and every byte of the
buffer is unchanged. -/
theorem claim_C3_blur_radius_zero_identity (data : List ℕ) (w h n : ℕ)
    (hl : data.length = w * h * 4) (hbytes : ∀ b ∈ data, b < 256) (hn : 1 ≤ n) :
    weighted_blur data w h 0 n = data := by
  unfold weighted_blur
  exact Function.iterate_fixed (blur_pass_radius_zero data w h hl hbytes) n

/-- C3 witness: radius 0, two iterations, on a concrete 1x1 image. -/
theorem claim_C3_blur_radius_zero_identity_witness :
    weighted_blur [7, 8, 9, 255] 1 1 0 2 = [7, 8, 9, 255] :=
  claim_C3_blur_radius_zero_identity [7, 8, 9, 255] 1 1 2 (by decide) (by decide) (by decide)

/-- A pass on a uniform-colour buffer is the identity: every weighted
average of identical channel values is that value. -/
theorem blur_pass_uniform (data : List ℕ) (w h r : ℕ) (p : ℕ → ℕ)
    (hl : data.length = w * h * 4)
    (hp : ∀ c, c < 4 → p c ≤ 255)
    (hunif : ∀ y, y < h → ∀ x, x < w → ∀ c, c < 4 →
      data.getD ((y * w + x) * 4 + c) 0 = p c) :
    blur_pass data w h r = data := by
  apply list_eq_of_getD
  · rw [blur_pass_length, hl]
  · intro n hn
    have hn2 : n < w * h * 4 := by rwa [blur_pass_length] at hn
    obtain ⟨y, x, c, hy, hx, hc, hn3⟩ := index_decomp w h n hn2
    subst hn3
    rw [blur_pass_getD data w h r y x c hy hx hc]
    have hcs : chanSum data w h x y r c = (p c : ℕ) * totWeight w h x y r := by
      unfold chanSum
      have hmap : (neighbor_list w h x y r).map
          (fun q => ((data.getD ((q.1 * w + q.2) * BYTES_PER_PIXEL + c) 0 : ℕ) : ℝ) *
            nweight x y q) =
          (neighbor_list w h x y r).map (fun q => ((p c : ℕ) : ℝ) * nweight x y q) := by
        apply List.map_congr_left
        intro q hq
        obtain ⟨hq1, hq2, _⟩ := neighbor_list_mem_bounds w h x y r q hq
        rw [show (BYTES_PER_PIXEL : ℕ) = 4 from rfl, hunif q.1 hq1 q.2 hq2 c hc]
      rw [hmap, List.sum_map_mul_left]
      rfl
    rw [hcs, mul_div_assoc,
      div_self (ne_of_gt (totWeight_pos w h x y r hx hy)), mul_one,
      toByte_natCast _ (hp c hc), hunif y hy x hx c hc]

/-- C4: for every image in which all pixels carry the same four channel
values, the weighted blur leaves every byte unchanged for every radius and
iteration count. -/
theorem claim_C4_blur_uniform_identity (data : List ℕ) (w h : ℕ) (p : ℕ → ℕ)
    (hl : data.length = w * h * 4)
    (hp : ∀ c, c < 4 → p c ≤ 255)
    (hunif : ∀ y, y < h → ∀ x, x < w → ∀ c, c < 4 →
      data.getD ((y * w + x) * 4 + c) 0 = p c)
    (r n : ℕ) :
    weighted_blur data w h r n = data := by
  unfold weighted_blur
  exact Function.iterate_fixed (blur_pass_uniform data w h r p hl hp hunif) n

/-- C4 witness: a uniform 2x1 image, radius 3, two iterations. -/
theorem claim_C4_blur_uniform_identity_witness :
    weighted_blur [3, 4, 5, 6, 3, 4, 5, 6] 2 1 3 2 = [3, 4, 5, 6, 3, 4, 5, 6] :=
  claim_C4_blur_uniform_identity [3, 4, 5, 6, 3, 4, 5, 6] 2 1 (fun c => c + 3)
    (by decide) (by decide) (by decide) 3 2

/-- C10: for every buffer, every dimension and every radius, the weighted
blur with `iterations = 0` runs its per-iteration loop zero times, so no
scratch-buffer copy happens and the buffer is returned unchanged. -/
theorem claim_C10_blur_zero_iterations (data : List ℕ) (w h r : ℕ) :
    weighted_blur data w h r 0 = data := rfl

/-- C2: for every valid configuration, all buffer indexing stays strictly
inside the `width * height * 4` byte view: every neighbourhood read and
every destination write of the blur engine, for any radius, and both index
components of every swap performed by the two flip engines. -/
theorem claim_C2_indexing_in_bounds (w h : ℕ) :
    (∀ x y r c, x < w → y < h → c < 4 →
      (y * w + x) * 4 + c < w * h * 4 ∧
      ∀ p, p ∈ neighbor_list w h x y r → (p.1 * w + p.2) * 4 + c < w * h * 4) ∧
    (∀ pr, pr ∈ hPairs w h → pr.1 < w * h * 4 ∧ pr.2 < w * h * 4) ∧
    (∀ pr, pr ∈ vPairs w h → pr.1 < w * h * 4 ∧ pr.2 < w * h * 4) := by
  refine ⟨?_, hPairs_bounds w h, vPairs_bounds w h⟩
  intro x y r c hx hy hc
  refine ⟨pixel_index_lt w h y x c hy hx hc, ?_⟩
  intro p hp
  obtain ⟨h1, h2, _⟩ := neighbor_list_mem_bounds w h x y r p hp
  exact pixel_index_lt w h p.1 p.2 c h1 h2 hc

/-- C2 witness: a 2x2 view, radius 1, the farthest neighbour of pixel
`(0, 0)` and one swap pair of each flip. -/
theorem claim_C2_indexing_in_bounds_witness :
    ((0 * 2 + 0) * 4 + 3 < 2 * 2 * 4 ∧
      (((1 : ℕ), (1 : ℕ)).1 * 2 + ((1 : ℕ), (1 : ℕ)).2) * 4 + 3 < 2 * 2 * 4) ∧
    (((0 : ℕ), (4 : ℕ)).1 < 2 * 2 * 4 ∧ ((0 : ℕ), (4 : ℕ)).2 < 2 * 2 * 4) := by
  have hmain := claim_C2_indexing_in_bounds 2 2
  have hblur := hmain.1 0 0 1 3 (by decide) (by decide) (by decide)
  refine ⟨⟨hblur.1, hblur.2 (1, 1) (by decide)⟩, hmain.2.1 (0, 4) (by decide)⟩

/-!
## Concrete single-row blur computations

On a single-row image with radius 1 every scanned neighbour is at distance
0 or 1, so every weight is exactly 1 and the weighted averages are exact
rational computations.
-/

/-- Weight 1 whenever the squared distance is at most 1. -/
theorem nweight_one (cx cy : ℕ) (p : ℕ × ℕ)
    (h : Nat.dist cx p.2 * Nat.dist cx p.2 + Nat.dist cy p.1 * Nat.dist cy p.1 ≤ 1) :
    nweight cx cy p = 1 := by
  unfold nweight
  have h2 : Nat.dist cx p.2 * Nat.dist cx p.2 + Nat.dist cy p.1 * Nat.dist cy p.1 = 0 ∨
      Nat.dist cx p.2 * Nat.dist cx p.2 + Nat.dist cy p.1 * Nat.dist cy p.1 = 1 := by omega
  rcases h2 with h2 | h2 <;> rw [h2] <;> norm_num

/-- Evaluation of `toByte` against explicit rounding bounds. -/
theorem toByte_eval (x : ℝ) (n : ℕ) (h0 : 0 ≤ x) (h1 : (n : ℝ) ≤ x + 1 / 2)
    (h2 : x + 1 / 2 < (n : ℝ) + 1) (h3 : n ≤ 255) : toByte x = n := by
  unfold toByte rustRound asU8
  rw [if_pos h0]
  have hf : ⌊x + 1 / 2⌋ = (n : ℤ) := by
    rw [Int.floor_eq_iff]
    push_cast
    constructor
    · linarith
    · linarith
  rw [hf]
  omega

/-- Channel sum at column 0 of a 3-wide single row. -/
theorem chanSum_w3_x0 (d : List ℕ) (off : ℕ) :
    chanSum d 3 1 0 0 1 off =
      (d.getD off 0 : ℕ) + ((d.getD (4 + off) 0 : ℕ) : ℝ) := by
  norm_num [chanSum, show neighbor_list 3 1 0 0 1 = [(0, 0), (0, 1)] from rfl,
    nweight_one, Nat.dist, BYTES_PER_PIXEL]

/-- Channel sum at column 1 of a 3-wide single row. -/
theorem chanSum_w3_x1 (d : List ℕ) (off : ℕ) :
    chanSum d 3 1 1 0 1 off =
      (d.getD off 0 : ℕ) + ((d.getD (4 + off) 0 : ℕ) : ℝ) + (d.getD (8 + off) 0 : ℕ) := by
  norm_num [chanSum, show neighbor_list 3 1 1 0 1 = [(0, 0), (0, 1), (0, 2)] from rfl,
    nweight_one, Nat.dist, BYTES_PER_PIXEL]
  ring

/-- Channel sum at column 2 of a 3-wide single row. -/
theorem chanSum_w3_x2 (d : List ℕ) (off : ℕ) :
    chanSum d 3 1 2 0 1 off =
      (d.getD (4 + off) 0 : ℕ) + ((d.getD (8 + off) 0 : ℕ) : ℝ) := by
  norm_num [chanSum, show neighbor_list 3 1 2 0 1 = [(0, 1), (0, 2)] from rfl,
    nweight_one, Nat.dist, BYTES_PER_PIXEL]

/-- Total weight at column 0 of a 3-wide single row. -/
theorem totW_w3_x0 : totWeight 3 1 0 0 1 = 2 := by
  norm_num [totWeight, show neighbor_list 3 1 0 0 1 = [(0, 0), (0, 1)] from rfl,
    nweight_one, Nat.dist]

/-- Total weight at column 1 of a 3-wide single row. -/
theorem totW_w3_x1 : totWeight 3 1 1 0 1 = 3 := by
  norm_num [totWeight, show neighbor_list 3 1 1 0 1 = [(0, 0), (0, 1), (0, 2)] from rfl,
    nweight_one, Nat.dist]

/-- Total weight at column 2 of a 3-wide single row. -/
theorem totW_w3_x2 : totWeight 3 1 2 0 1 = 2 := by
  norm_num [totWeight, show neighbor_list 3 1 2 0 1 = [(0, 1), (0, 2)] from rfl,
    nweight_one, Nat.dist]

/-- Channel sum at column 0 of a 7-wide single row. -/
theorem chanSum_w7_x0 (d : List ℕ) (off : ℕ) :
    chanSum d 7 1 0 0 1 off =
      (d.getD off 0 : ℕ) + ((d.getD (4 + off) 0 : ℕ) : ℝ) := by
  norm_num [chanSum, show neighbor_list 7 1 0 0 1 = [(0, 0), (0, 1)] from rfl,
    nweight_one, Nat.dist, BYTES_PER_PIXEL]

/-- Channel sum at column 1 of a 7-wide single row. -/
theorem chanSum_w7_x1 (d : List ℕ) (off : ℕ) :
    chanSum d 7 1 1 0 1 off =
      (d.getD off 0 : ℕ) + ((d.getD (4 + off) 0 : ℕ) : ℝ) + (d.getD (8 + off) 0 : ℕ) := by
  norm_num [chanSum, show neighbor_list 7 1 1 0 1 = [(0, 0), (0, 1), (0, 2)] from rfl,
    nweight_one, Nat.dist, BYTES_PER_PIXEL]
  ring

/-- Channel sum at column 2 of a 7-wide single row. -/
theorem chanSum_w7_x2 (d : List ℕ) (off : ℕ) :
    chanSum d 7 1 2 0 1 off =
      (d.getD (4 + off) 0 : ℕ) + ((d.getD (8 + off) 0 : ℕ) : ℝ) + (d.getD (12 + off) 0 : ℕ) := by
  norm_num [chanSum, show neighbor_list 7 1 2 0 1 = [(0, 1), (0, 2), (0, 3)] from rfl,
    nweight_one, Nat.dist, BYTES_PER_PIXEL]
  ring

/-- Channel sum at column 3 of a 7-wide single row. -/
theorem chanSum_w7_x3 (d : List ℕ) (off : ℕ) :
    chanSum d 7 1 3 0 1 off =
      (d.getD (8 + off) 0 : ℕ) + ((d.getD (12 + off) 0 : ℕ) : ℝ) + (d.getD (16 + off) 0 : ℕ) := by
  norm_num [chanSum, show neighbor_list 7 1 3 0 1 = [(0, 2), (0, 3), (0, 4)] from rfl,
    nweight_one, Nat.dist, BYTES_PER_PIXEL]
  ring

/-- Channel sum at column 4 of a 7-wide single row. -/
theorem chanSum_w7_x4 (d : List ℕ) (off : ℕ) :
    chanSum d 7 1 4 0 1 off =
      (d.getD (12 + off) 0 : ℕ) + ((d.getD (16 + off) 0 : ℕ) : ℝ) + (d.getD (20 + off) 0 : ℕ) := by
  norm_num [chanSum, show neighbor_list 7 1 4 0 1 = [(0, 3), (0, 4), (0, 5)] from rfl,
    nweight_one, Nat.dist, BYTES_PER_PIXEL]
  ring

/-- Channel sum at column 5 of a 7-wide single row. -/
theorem chanSum_w7_x5 (d : List ℕ) (off : ℕ) :
    chanSum d 7 1 5 0 1 off =
      (d.getD (16 + off) 0 : ℕ) + ((d.getD (20 + off) 0 : ℕ) : ℝ) + (d.getD (24 + off) 0 : ℕ) := by
  norm_num [chanSum, show neighbor_list 7 1 5 0 1 = [(0, 4), (0, 5), (0, 6)] from rfl,
    nweight_one, Nat.dist, BYTES_PER_PIXEL]
  ring

/-- Channel sum at column 6 of a 7-wide single row. -/
theorem chanSum_w7_x6 (d : List ℕ) (off : ℕ) :
    chanSum d 7 1 6 0 1 off =
      (d.getD (20 + off) 0 : ℕ) + ((d.getD (24 + off) 0 : ℕ) : ℝ) := by
  norm_num [chanSum, show neighbor_list 7 1 6 0 1 = [(0, 5), (0, 6)] from rfl,
    nweight_one, Nat.dist, BYTES_PER_PIXEL]

/-- Total weight at column 0 of a 7-wide single row. -/
theorem totW_w7_x0 : totWeight 7 1 0 0 1 = 2 := by
  norm_num [totWeight, show neighbor_list 7 1 0 0 1 = [(0, 0), (0, 1)] from rfl,
    nweight_one, Nat.dist]

/-- Total weight at column 1 of a 7-wide single row. -/
theorem totW_w7_x1 : totWeight 7 1 1 0 1 = 3 := by
  norm_num [totWeight, show neighbor_list 7 1 1 0 1 = [(0, 0), (0, 1), (0, 2)] from rfl,
    nweight_one, Nat.dist]

/-- Total weight at column 2 of a 7-wide single row. -/
theorem totW_w7_x2 : totWeight 7 1 2 0 1 = 3 := by
  norm_num [totWeight, show neighbor_list 7 1 2 0 1 = [(0, 1), (0, 2), (0, 3)] from rfl,
    nweight_one, Nat.dist]

/-- Total weight at column 3 of a 7-wide single row. -/
theorem totW_w7_x3 : totWeight 7 1 3 0 1 = 3 := by
  norm_num [totWeight, show neighbor_list 7 1 3 0 1 = [(0, 2), (0, 3), (0, 4)] from rfl,
    nweight_one, Nat.dist]

/-- Total weight at column 4 of a 7-wide single row. -/
theorem totW_w7_x4 : totWeight 7 1 4 0 1 = 3 := by
  norm_num [totWeight, show neighbor_list 7 1 4 0 1 = [(0, 3), (0, 4), (0, 5)] from rfl,
    nweight_one, Nat.dist]

/-- Total weight at column 5 of a 7-wide single row. -/
theorem totW_w7_x5 : totWeight 7 1 5 0 1 = 3 := by
  norm_num [totWeight, show neighbor_list 7 1 5 0 1 = [(0, 4), (0, 5), (0, 6)] from rfl,
    nweight_one, Nat.dist]

/-- Total weight at column 6 of a 7-wide single row. -/
theorem totW_w7_x6 : totWeight 7 1 6 0 1 = 2 := by
  norm_num [totWeight, show neighbor_list 7 1 6 0 1 = [(0, 5), (0, 6)] from rfl,
    nweight_one, Nat.dist]

/-- First pass on the 3-wide single-bright-pixel row. -/
theorem row3_pass1 : blur_pass rowImage3 3 1 1 =
    [128, 128, 128, 128, 85, 85, 85, 85, 128, 128, 128, 128] := by
  simp only [blur_pass, accumulate_neighborhood,
    show List.range 1 = [0] from rfl, show List.range 3 = [0, 1, 2] from rfl,
    List.flatMap_cons, List.flatMap_nil, List.append_nil, List.cons_append, List.nil_append,
    chanSum_w3_x0, chanSum_w3_x1, chanSum_w3_x2, totW_w3_x0, totW_w3_x1, totW_w3_x2]
  norm_num [rowImage3, darkPx, brightPx]
  repeat' apply And.intro
  all_goals (apply toByte_eval) <;> norm_num

/-- Second pass on the 3-wide single-bright-pixel row. -/
theorem row3_pass2 : blur_pass [128, 128, 128, 128, 85, 85, 85, 85, 128, 128, 128, 128] 3 1 1 =
    [107, 107, 107, 107, 114, 114, 114, 114, 107, 107, 107, 107] := by
  simp only [blur_pass, accumulate_neighborhood,
    show List.range 1 = [0] from rfl, show List.range 3 = [0, 1, 2] from rfl,
    List.flatMap_cons, List.flatMap_nil, List.append_nil, List.cons_append, List.nil_append,
    chanSum_w3_x0, chanSum_w3_x1, chanSum_w3_x2, totW_w3_x0, totW_w3_x1, totW_w3_x2]
  norm_num
  repeat' apply And.intro
  all_goals (apply toByte_eval) <;> norm_num

/-- Centre value of the third pass on the 3-wide row. -/
theorem row3_pass3_center :
    (blur_pass [107, 107, 107, 107, 114, 114, 114, 114, 107, 107, 107, 107] 3 1 1).getD 4 0 = 109 := by
  have h := blur_pass_getD [107, 107, 107, 107, 114, 114, 114, 114, 107, 107, 107, 107]
    3 1 1 0 1 0 (by decide) (by decide) (by decide)
  rw [show ((0 : ℕ) * 3 + 1) * 4 + 0 = 4 from rfl] at h
  rw [h, chanSum_w3_x1, totW_w3_x1]
  norm_num
  apply toByte_eval <;> norm_num

/-- One blur iteration on the 3-wide row. -/
theorem row3_iter1 : weighted_blur rowImage3 3 1 1 1 =
    [128, 128, 128, 128, 85, 85, 85, 85, 128, 128, 128, 128] := by
  unfold weighted_blur
  rw [Function.iterate_one]
  exact row3_pass1

/-- Centre value after three blur iterations on the 3-wide row. -/
theorem row3_iter3_center : (weighted_blur rowImage3 3 1 1 3).getD 4 0 = 109 := by
  unfold weighted_blur
  simp only [Function.iterate_succ_apply', Function.iterate_zero_apply]
  rw [row3_pass1, row3_pass2]
  exact row3_pass3_center

/-- C5 counterexample: on the 3-wide single-row buffer whose centre pixel
is bright (255) and whose other pixels are dark (0) — a single bright
pixel centred in an otherwise dark image — the centre channel value is 85
after one iteration of radius-1 blur but 109 after three iterations, so
it is not strictly smaller and the centre value is not non-increasing in
the iteration count. -/
theorem claim_C5_counterexample_1x3 :
    (weighted_blur rowImage3 3 1 1 1).getD 4 0 = 85 ∧
    (weighted_blur rowImage3 3 1 1 3).getD 4 0 = 109 ∧
    ¬ ((weighted_blur rowImage3 3 1 1 3).getD 4 0 <
        (weighted_blur rowImage3 3 1 1 1).getD 4 0) := by
  rw [row3_iter1, row3_iter3_center]
  refine ⟨by decide, rfl, by decide⟩

/-- First pass on the 7-wide single-bright-pixel row. -/
theorem row7_pass1 : blur_pass rowImage7 7 1 1 =
    [0, 0, 0, 0, 0, 0, 0, 0, 85, 85, 85, 85, 85, 85, 85, 85, 85, 85, 85, 85,
     0, 0, 0, 0, 0, 0, 0, 0] := by
  simp only [blur_pass, accumulate_neighborhood,
    show List.range 1 = [0] from rfl,
    show List.range 7 = [0, 1, 2, 3, 4, 5, 6] from rfl,
    List.flatMap_cons, List.flatMap_nil, List.append_nil, List.cons_append, List.nil_append,
    chanSum_w7_x0, chanSum_w7_x1, chanSum_w7_x2, chanSum_w7_x3, chanSum_w7_x4,
    chanSum_w7_x5, chanSum_w7_x6,
    totW_w7_x0, totW_w7_x1, totW_w7_x2, totW_w7_x3, totW_w7_x4, totW_w7_x5, totW_w7_x6]
  norm_num [rowImage7, darkPx, brightPx]
  repeat' apply And.intro
  all_goals (apply toByte_eval) <;> norm_num

/-- Second pass on the 7-wide single-bright-pixel row. -/
theorem row7_pass2 : blur_pass
    [0, 0, 0, 0, 0, 0, 0, 0, 85, 85, 85, 85, 85, 85, 85, 85, 85, 85, 85, 85,
     0, 0, 0, 0, 0, 0, 0, 0] 7 1 1 =
    [0, 0, 0, 0, 28, 28, 28, 28, 57, 57, 57, 57, 85, 85, 85, 85, 57, 57, 57, 57,
     28, 28, 28, 28, 0, 0, 0, 0] := by
  simp only [blur_pass, accumulate_neighborhood,
    show List.range 1 = [0] from rfl,
    show List.range 7 = [0, 1, 2, 3, 4, 5, 6] from rfl,
    List.flatMap_cons, List.flatMap_nil, List.append_nil, List.cons_append, List.nil_append,
    chanSum_w7_x0, chanSum_w7_x1, chanSum_w7_x2, chanSum_w7_x3, chanSum_w7_x4,
    chanSum_w7_x5, chanSum_w7_x6,
    totW_w7_x0, totW_w7_x1, totW_w7_x2, totW_w7_x3, totW_w7_x4, totW_w7_x5, totW_w7_x6]
  norm_num
  repeat' apply And.intro
  all_goals (apply toByte_eval) <;> norm_num

/-- Centre value of the third pass on the 7-wide row. -/
theorem row7_pass3_center :
    (blur_pass
      [0, 0, 0, 0, 28, 28, 28, 28, 57, 57, 57, 57, 85, 85, 85, 85, 57, 57, 57, 57,
       28, 28, 28, 28, 0, 0, 0, 0] 7 1 1).getD 12 0 = 66 := by
  have h := blur_pass_getD
    [0, 0, 0, 0, 28, 28, 28, 28, 57, 57, 57, 57, 85, 85, 85, 85, 57, 57, 57, 57,
     28, 28, 28, 28, 0, 0, 0, 0] 7 1 1 0 3 0 (by decide) (by decide) (by decide)
  rw [show ((0 : ℕ) * 7 + 3) * 4 + 0 = 12 from rfl] at h
  rw [h, chanSum_w7_x3, totW_w7_x3]
  norm_num
  apply toByte_eval <;> norm_num

/-- One blur iteration on the 7-wide row. -/
theorem row7_iter1 : weighted_blur rowImage7 7 1 1 1 =
    [0, 0, 0, 0, 0, 0, 0, 0, 85, 85, 85, 85, 85, 85, 85, 85, 85, 85, 85, 85,
     0, 0, 0, 0, 0, 0, 0, 0] := by
  unfold weighted_blur
  rw [Function.iterate_one]
  exact row7_pass1

/-- Two blur iterations on the 7-wide row. -/
theorem row7_iter2 : weighted_blur rowImage7 7 1 1 2 =
    [0, 0, 0, 0, 28, 28, 28, 28, 57, 57, 57, 57, 85, 85, 85, 85, 57, 57, 57, 57,
     28, 28, 28, 28, 0, 0, 0, 0] := by
  unfold weighted_blur
  simp only [Function.iterate_succ_apply', Function.iterate_zero_apply]
  rw [row7_pass1]
  exact row7_pass2

/-- Centre value after three blur iterations on the 7-wide row. -/
theorem row7_iter3_center : (weighted_blur rowImage7 7 1 1 3).getD 12 0 = 66 := by
  unfold weighted_blur
  simp only [Function.iterate_succ_apply', Function.iterate_zero_apply]
  rw [row7_pass1, row7_pass2]
  exact row7_pass3_center

/-- C5 amended: on the concrete 7-wide single-row buffer whose centre
pixel is bright (255 on all channels) and whose other pixels are dark, the
centre channel value after radius-1 blur is 85 after one iteration, 85
after two and 66 after three: strictly smaller after three iterations than
after one, and non-increasing over iterations one to three.  (The original
universally quantified claim fails, see the 3-wide counterexample.) -/
theorem claim_C5_amended_1x7 :
    (weighted_blur rowImage7 7 1 1 1).getD 12 0 = 85 ∧
    (weighted_blur rowImage7 7 1 1 2).getD 12 0 = 85 ∧
    (weighted_blur rowImage7 7 1 1 3).getD 12 0 = 66 ∧
    (weighted_blur rowImage7 7 1 1 3).getD 12 0 <
      (weighted_blur rowImage7 7 1 1 1).getD 12 0 ∧
    (weighted_blur rowImage7 7 1 1 2).getD 12 0 ≤
      (weighted_blur rowImage7 7 1 1 1).getD 12 0 ∧
    (weighted_blur rowImage7 7 1 1 3).getD 12 0 ≤
      (weighted_blur rowImage7 7 1 1 2).getD 12 0 := by
  rw [row7_iter1, row7_iter2, row7_iter3_center]
  refine ⟨by decide, by decide, rfl, by decide, by decide, by decide⟩

/-!
## Entry-point validation and parameter decoding
-/

/-- C1: for every call in which the buffer pointer or the parameter
pointer is null, or a dimension is zero, or `width * height * 4` overflows
the length type, both entry points perform no processing and return the
buffer untouched; the blur entry point (void-returning) simply returns,
and the mirror entry point signals failure with a nonzero status whose
value witnesses the check order: null pointers (1) before zero dimensions
(2) before size overflow (3). -/
theorem claim_C1_boundary_validation (width height : ℕ) (rgba : Option (List ℕ))
    (params : Option (Option Json))
    (hrej : rgba = none ∨ params = none ∨ width = 0 ∨ height = 0 ∨
      USIZE_BOUND ≤ width * height * 4) :
    blur_process_image width height rgba params = rgba ∧
    (mirror_process_image width height rgba params).2 = rgba ∧
    (mirror_process_image width height rgba params).1 ≠ 0 ∧
    ((rgba = none ∨ params = none) →
      (mirror_process_image width height rgba params).1 = 1) ∧
    (rgba ≠ none → params ≠ none → (width = 0 ∨ height = 0) →
      (mirror_process_image width height rgba params).1 = 2) ∧
    (rgba ≠ none → params ≠ none → width ≠ 0 → height ≠ 0 →
      USIZE_BOUND ≤ width * height * 4 →
      (mirror_process_image width height rgba params).1 = 3) := by
  rcases rgba with _ | d
  · simp [blur_process_image, mirror_process_image]
  rcases params with _ | pj
  · simp [blur_process_image, mirror_process_image]
  have hcond : width = 0 ∨ height = 0 ∨ USIZE_BOUND ≤ width * height * 4 := by
    rcases hrej with h | h | h | h | h
    · exact absurd h (by simp)
    · exact absurd h (by simp)
    · exact Or.inl h
    · exact Or.inr (Or.inl h)
    · exact Or.inr (Or.inr h)
  by_cases hw : width = 0
  · simp [blur_process_image, mirror_process_image, hw]
  by_cases hh : height = 0
  · simp [blur_process_image, mirror_process_image, hw, hh]
  have hov : USIZE_BOUND ≤ width * height * 4 := by tauto
  unfold blur_process_image mirror_process_image checked_mul
  by_cases h1 : width * height < USIZE_BOUND
  · have h2 : ¬ (width * height * BYTES_PER_PIXEL < USIZE_BOUND) := by
      simp only [BYTES_PER_PIXEL]
      omega
    simp [hw, hh, h1, h2]
  · simp [hw, hh, h1]

/-- C1 witness: zero width with valid pointers. -/
theorem claim_C1_boundary_validation_witness :
    blur_process_image 0 5 (some [1, 2]) (some none) = some [1, 2] ∧
    (mirror_process_image 0 5 (some [1, 2]) (some none)).2 = some [1, 2] ∧
    (mirror_process_image 0 5 (some [1, 2]) (some none)).1 ≠ 0 ∧
    (((some [1, 2] : Option (List ℕ)) = none ∨
        (some none : Option (Option Json)) = none) →
      (mirror_process_image 0 5 (some [1, 2]) (some none)).1 = 1) ∧
    ((some [1, 2] : Option (List ℕ)) ≠ none →
      (some none : Option (Option Json)) ≠ none → ((0 : ℕ) = 0 ∨ (5 : ℕ) = 0) →
      (mirror_process_image 0 5 (some [1, 2]) (some none)).1 = 2) ∧
    ((some [1, 2] : Option (List ℕ)) ≠ none →
      (some none : Option (Option Json)) ≠ none → (0 : ℕ) ≠ 0 → (5 : ℕ) ≠ 0 →
      USIZE_BOUND ≤ 0 * 5 * 4 →
      (mirror_process_image 0 5 (some [1, 2]) (some none)).1 = 3) :=
  claim_C1_boundary_validation 0 5 (some [1, 2]) (some none)
    (Or.inr (Or.inr (Or.inl rfl)))

/-- C8: for the blur module, any parameter text that fails to parse
(including empty or non-UTF-8 text, which is replaced by the empty string
and never parses) yields the all-defaults configuration
`radius = 1, iterations = 1` and processing still proceeds with those
defaults; keys absent from an object individually take their defaults and
unknown keys are ignored. -/
theorem claim_C8_blur_param_fallback :
    (∀ width height : ℕ, ∀ d : List ℕ, ∀ p : Option Json,
      width ≠ 0 → height ≠ 0 → width * height * 4 < USIZE_BOUND →
      p.bind blurParamsOfJson = none →
      blur_process_image width height (some d) (some p) =
        some (weighted_blur d width height 1 1)) ∧
    parseBlurParams none = blurDefault ∧
    blurDefault.radius = 1 ∧ blurDefault.iterations = 1 ∧
    (∀ kvs : List (String × Json), ∀ bp : BlurParams,
      blurParamsOfJson (Json.obj kvs) = some bp →
      (List.lookup radiusKey kvs = none → bp.radius = 1) ∧
      (List.lookup iterationsKey kvs = none → bp.iterations = 1)) ∧
    (∀ (k : String) (v : Json) (kvs : List (String × Json)),
      k ≠ radiusKey → k ≠ iterationsKey →
      blurParamsOfJson (Json.obj ((k, v) :: kvs)) = blurParamsOfJson (Json.obj kvs)) := by
  refine ⟨?_, rfl, rfl, rfl, ?_, ?_⟩
  · intro width height d p hw hh hov hfail
    unfold blur_process_image checked_mul
    have h1 : width * height < USIZE_BOUND := by
      simp only [USIZE_BOUND] at *
      nlinarith
    have h2 : width * height * BYTES_PER_PIXEL < USIZE_BOUND := by
      simpa [BYTES_PER_PIXEL] using hov
    simp [hw, hh, h1, h2, parseBlurParams, hfail, blurDefault]
  · intro kvs bp hbp
    constructor
    · intro hrad
      rcases hit : List.lookup iterationsKey kvs with _ | v
      · simp only [blurParamsOfJson, hrad, hit, Option.some.injEq] at hbp
        rw [← hbp]
      · rcases hu : jsonU32 v with _ | u
        · simp [blurParamsOfJson, hrad, hit, hu] at hbp
        · simp only [blurParamsOfJson, hrad, hit, hu, Option.some.injEq] at hbp
          rw [← hbp]
    · intro hit
      rcases hrad : List.lookup radiusKey kvs with _ | v
      · simp only [blurParamsOfJson, hrad, hit, Option.some.injEq] at hbp
        rw [← hbp]
      · rcases hu : jsonU32 v with _ | u
        · simp [blurParamsOfJson, hrad, hit, hu] at hbp
        · simp only [blurParamsOfJson, hrad, hit, hu, Option.some.injEq] at hbp
          rw [← hbp]
  · intro k v kvs hk1 hk2
    have hb1 : (radiusKey == k) = false := beq_eq_false_iff_ne.mpr (Ne.symm hk1)
    have hb2 : (iterationsKey == k) = false := beq_eq_false_iff_ne.mpr (Ne.symm hk2)
    have e1 : List.lookup radiusKey ((k, v) :: kvs) = List.lookup radiusKey kvs := by
      simp [List.lookup, hb1]
    have e2 : List.lookup iterationsKey ((k, v) :: kvs) = List.lookup iterationsKey kvs := by
      simp [List.lookup, hb2]
    simp only [blurParamsOfJson, e1, e2]

/-- C8 witness: unparsable text on a 1x1 image, and an unknown key in
front of an empty object. -/
theorem claim_C8_blur_param_fallback_witness :
    blur_process_image 1 1 (some [9, 9, 9, 9]) (some none) =
      some (weighted_blur [9, 9, 9, 9] 1 1 1 1) ∧
    blurParamsOfJson (Json.obj [(verticalKey, Json.bool true)]) =
      blurParamsOfJson (Json.obj []) := by
  constructor
  · exact claim_C8_blur_param_fallback.1 1 1 [9, 9, 9, 9] none
      (by decide) (by decide) (by norm_num [USIZE_BOUND]) rfl
  · exact claim_C8_blur_param_fallback.2.2.2.2.2 verticalKey (Json.bool true) []
      (by decide) (by decide)

/-- C9: for the mirror module, any parameter text that does not parse as a
JSON object of its schema is reported as the distinct nonzero status 4 and
no processing occurs — the buffer is returned byte-for-byte unchanged; on
parse success the entry point returns 0. -/
theorem claim_C9_mirror_param_failure (width height : ℕ) (d : List ℕ) (p : Option Json)
    (hw : width ≠ 0) (hh : height ≠ 0) (hov : width * height * 4 < USIZE_BOUND) :
    (p.bind mirrorParamsOfJson = none →
      mirror_process_image width height (some d) (some p) = (4, some d) ∧ (4 : ℤ) ≠ 0) ∧
    (∀ mp : MirrorParams, p.bind mirrorParamsOfJson = some mp →
      (mirror_process_image width height (some d) (some p)).1 = 0) := by
  have h1 : width * height < USIZE_BOUND := by
    simp only [USIZE_BOUND] at *
    nlinarith
  have h2 : width * height * BYTES_PER_PIXEL < USIZE_BOUND := by
    simpa [BYTES_PER_PIXEL] using hov
  constructor
  · intro hfail
    unfold mirror_process_image checked_mul
    simp [hw, hh, h1, h2, hfail]
  · intro mp hok
    unfold mirror_process_image checked_mul
    simp [hw, hh, h1, h2, hok]

/-- C9 witness: a JSON number is not an object, so the mirror entry point
reports 4 and leaves the buffer unchanged. -/
theorem claim_C9_mirror_param_failure_witness :
    mirror_process_image 1 1 (some [1, 2, 3, 4]) (some (some (Json.num 3))) =
      (4, some [1, 2, 3, 4]) ∧ (4 : ℤ) ≠ 0 :=
  (claim_C9_mirror_param_failure 1 1 [1, 2, 3, 4] (some (Json.num 3))
    (by decide) (by decide) (by norm_num [USIZE_BOUND])).1 rfl
